import Mathlib

/-!
Verification development for the hako note-graph indexing engine.

The definitions below are a shallow embedding of the TypeScript source:
wiki-link extraction with code-span masking (packages/core markdown
utilities), title resolution and link-row construction, the reindex batch
over the persisted link store, and the backlink derivation (packages/web).
Strings are modelled as lists of characters; the regular expressions of the
source are modelled by explicit scanners with the same matching semantics
(leftmost match, greedy captures with backtracking, lazy bodies).
-/

/-- Note bodies and titles are lists of characters. -/
abbrev Str := List Char

/-- The backtick character (code-span delimiter). -/
def backtick : Char := Char.ofNat 96

/-- The tilde character (alternative fence delimiter). -/
def tilde : Char := '~'

/-- Whitespace as stripped by JavaScript String.prototype.trim
(ECMAScript WhiteSpace and LineTerminator code points). -/
def isJsWs (c : Char) : Bool :=
  let n := c.toNat
  n = 9 ∨ n = 10 ∨ n = 11 ∨ n = 12 ∨ n = 13 ∨ n = 32 ∨ n = 160 ∨
  n = 0x1680 ∨ (0x2000 ≤ n ∧ n ≤ 0x200A) ∨ n = 0x2028 ∨ n = 0x2029 ∨
  n = 0x202F ∨ n = 0x205F ∨ n = 0x3000 ∨ n = 0xFEFF

/-- JavaScript-style trim: strip whitespace from both ends. -/
def trimStr (l : Str) : Str :=
  ((l.dropWhile isJsWs).reverse.dropWhile isJsWs).reverse

/-- Length of the run of copies of `c` at the head of the list. -/
def runLen (c : Char) : Str → Nat
  | [] => 0
  | x :: xs => if x = c then runLen c xs + 1 else 0

/-- Whether the list starts with `k` copies of `c`. -/
def hasRun (c : Char) : Nat → Str → Bool
  | 0, _ => true
  | _ + 1, [] => false
  | k + 1, x :: xs => x = c && hasRun c k xs

/-- Position of the earliest occurrence of `k` consecutive copies of `c`. -/
def findRun (c : Char) (k : Nat) : Str → Option Nat
  | [] => if hasRun c k [] then some 0 else none
  | x :: xs =>
    if hasRun c k (x :: xs) then some 0
    else (findRun c k xs).map fun n => n + 1

/-- Position of the earliest occurrence of `k` consecutive copies of the
backtick before the end of the current line (the inline-code body may not
contain a newline). -/
def findRunLine (k : Nat) : Str → Option Nat
  | [] => if hasRun backtick k [] then some 0 else none
  | x :: xs =>
    if hasRun backtick k (x :: xs) then some 0
    else if x = '\n' then none
    else (findRunLine k xs).map fun n => n + 1

/-- Total length of a fenced-code match whose opening run of `c` has been
shortened to `k` delimiters: `k` for the opener, the lazy body, and `k`
for the closer (the backreference of the source regex). -/
def closeFence (c : Char) (k : Nat) (l : Str) : Option Nat :=
  (findRun c k (l.drop k)).map fun j => k + j + k

/-- Backtracking over the greedy opening-run capture of the fenced-code
regex: try capture length `e + 3` first, then shorter captures down to 3. -/
def fenceLen (c : Char) (l : Str) : Nat → Option Nat
  | 0 => closeFence c 3 l
  | e + 1 =>
    match closeFence c (e + 4) l with
    | some len => some len
    | none => fenceLen c l e

/-- Total length of an inline-code match with opening capture `k`. -/
def closeInline (k : Nat) (l : Str) : Option Nat :=
  (findRunLine k (l.drop k)).map fun j => k + j + k

/-- Backtracking over the greedy opening-run capture of the inline-code
regex: try capture length `k` first, then shorter captures down to 1. -/
def inlineLen (l : Str) : Nat → Option Nat
  | 0 => none
  | k + 1 =>
    match closeInline (k + 1) l with
    | some len => some len
    | none => inlineLen l k

/-- First masking pass of maskCodeSpans: replace every match of the
fenced-code-block regex by spaces of equal length.  The fuel argument
bounds the number of scan steps; each step consumes at least one
character, so fuel equal to the input length is enough. -/
def maskFenced : Nat → Str → Str
  | 0, l => l
  | _ + 1, [] => []
  | fuel + 1, x :: xs =>
    if x = backtick ∨ x = tilde then
      let n := runLen x (x :: xs)
      if 3 ≤ n then
        match fenceLen x (x :: xs) (n - 3) with
        | some len => List.replicate len ' ' ++ maskFenced fuel ((x :: xs).drop len)
        | none => x :: maskFenced fuel xs
      else x :: maskFenced fuel xs
    else x :: maskFenced fuel xs

/-- Second masking pass of maskCodeSpans: replace every match of the
inline-code regex by spaces of equal length. -/
def maskInline : Nat → Str → Str
  | 0, l => l
  | _ + 1, [] => []
  | fuel + 1, x :: xs =>
    if x = backtick then
      match inlineLen (x :: xs) (runLen x (x :: xs)) with
      | some len => List.replicate len ' ' ++ maskInline fuel ((x :: xs).drop len)
      | none => x :: maskInline fuel xs
    else x :: maskInline fuel xs

/-- Mask code spans to avoid matching wiki links inside code: first fenced
code blocks, then inline code spans, each replaced by equal-length runs of
spaces. -/
def maskCodeSpans (l : Str) : Str :=
  let f := maskFenced l.length l
  maskInline f.length f

/-- Characters allowed in the title group of the wiki-link regex:
anything except a closing bracket and the label separator. -/
def wikiTitleChar (c : Char) : Bool := ¬ (c = ']' ∨ c = '|')

/-- Characters allowed in the label group of the wiki-link regex. -/
def wikiLabelChar (c : Char) : Bool := ¬ c = ']'

/-- Closing step of a labelled wiki-link match: the remainder after the
label group must start with the two closing brackets. -/
def tryClose (t lab : Str) : Str → Option (Str × Option Str × Str)
  | d1 :: d2 :: r5 => if d1 = ']' ∧ d2 = ']' then some (t, some lab, r5) else none
  | _ => none

/-- Label group of a wiki-link match: after the separator bar, a nonempty
greedy run of label characters must be followed by the closing brackets.
Returns the raw title, the raw label, and the remainder after the match. -/
def tryLabel (t : Str) (r3 : Str) : Option (Str × Option Str × Str) :=
  let lab := r3.takeWhile wikiLabelChar
  let r4 := r3.dropWhile wikiLabelChar
  if lab = [] then none else tryClose t lab r4

/-- Continuation of a wiki-link match after the opening brackets and the
title group `t`: either the closing brackets directly, or a label group
followed by the closing brackets.  Returns the raw title, the optional raw
label, and the remainder of the input after the match. -/
def tryWikiTail (t : Str) : Str → Option (Str × Option Str × Str)
  | d1 :: d2 :: r3 =>
    if d1 = ']' ∧ d2 = ']' then some (t, none, r3)
    else if d1 = '|' then tryLabel t (d2 :: r3)
    else none
  | [d1] => if d1 = '|' then tryLabel t [] else none
  | [] => none

/-- Attempt to match the wiki-link regex at the head of the input. -/
def tryWiki : Str → Option (Str × Option Str × Str)
  | c1 :: c2 :: rest =>
    if c1 = '[' ∧ c2 = '[' then
      let t := rest.takeWhile wikiTitleChar
      let r2 := rest.dropWhile wikiTitleChar
      if t = [] then none else tryWikiTail t r2
    else none
  | _ => none

/-- One raw match of the wiki-link regex: start offset, match length, raw
title group, optional raw label group. -/
structure RawMatch where
  start : Nat
  len : Nat
  title : Str
  lab : Option Str
deriving DecidableEq, Repr

/-- Global scan of the wiki-link regex: at each position try to match; on
success emit the match and continue after it, otherwise advance one
character.  Fuel bounds the number of steps. -/
def scanWiki : Nat → Str → List RawMatch
  | 0, _ => []
  | _ + 1, [] => []
  | fuel + 1, x :: xs =>
    match tryWiki (x :: xs) with
    | some (t, lab, r) =>
      let mlen := (x :: xs).length - r.length
      ⟨0, mlen, t, lab⟩ ::
        (scanWiki fuel r).map fun m => { m with start := m.start + mlen }
    | none => (scanWiki fuel xs).map fun m => { m with start := m.start + 1 }

/-- A parsed wiki link: target title and display label. -/
structure WikiLink where
  title : Str
  label : Str
deriving DecidableEq, Repr

/-- Extract wiki links from markdown content: mask code spans, scan for the
wiki-link pattern, trim the title (discarding links whose trimmed title is
empty), and default the label to the trimmed title when the label group is
absent or trims to the empty string. -/
def extractWikiLinks (content : Str) : List WikiLink :=
  let masked := maskCodeSpans content
  (scanWiki masked.length masked).filterMap fun m =>
    let t := trimStr m.title
    if t = [] then none
    else
      let lab :=
        match m.lab with
        | none => t
        | some rawLab =>
          let l := trimStr rawLab
          if l = [] then t else l
      some ⟨t, lab⟩

/-! ## Web-side extractor

The web package (shared/lib/wiki-links.ts) duplicates the extraction loop
with simpler masking regexes: fenced code blocks are delimited by exactly
three backticks with no backreference and no tilde form, and inline code
spans are single-backtick delimited with a body of non-backtick characters
that may cross newlines.  The backlink derivation calls this extractor,
not the core one. -/

/-- Length of a web fenced-code match at the head of the input: exactly
three backticks, a lazy body, and the earliest three closing backticks. -/
def webFenceLen (l : Str) : Option Nat :=
  if hasRun backtick 3 l then (findRun backtick 3 (l.drop 3)).map fun j => 3 + j + 3
  else none

/-- Length of a web inline-code match at the head of the input: one
backtick, a greedy run of non-backtick characters (newlines allowed), and
one closing backtick. -/
def webInlineLen : Str → Option Nat
  | [] => none
  | x :: rest =>
    if x = backtick then
      match rest.dropWhile fun ch => ¬ ch = backtick with
      | _ :: _ => some (1 + (rest.takeWhile fun ch => ¬ ch = backtick).length + 1)
      | [] => none
    else none

/-- First web masking pass: replace every fenced-code match by spaces. -/
def webMaskFenced : Nat → Str → Str
  | 0, l => l
  | _ + 1, [] => []
  | fuel + 1, x :: xs =>
    match webFenceLen (x :: xs) with
    | some len => List.replicate len ' ' ++ webMaskFenced fuel ((x :: xs).drop len)
    | none => x :: webMaskFenced fuel xs

/-- Second web masking pass: replace every inline-code match by spaces. -/
def webMaskInline : Nat → Str → Str
  | 0, l => l
  | _ + 1, [] => []
  | fuel + 1, x :: xs =>
    match webInlineLen (x :: xs) with
    | some len => List.replicate len ' ' ++ webMaskInline fuel ((x :: xs).drop len)
    | none => x :: webMaskInline fuel xs

/-- Web maskCodeSpans: fenced blocks first, then inline spans. -/
def webMaskCodeSpans (l : Str) : Str :=
  let f := webMaskFenced l.length l
  webMaskInline f.length f

/-- Web extractWikiLinks: same wiki-link pattern and the same trim,
discard and label-defaulting steps as the core extractor, but applied
after the web masking passes. -/
def webExtractWikiLinks (content : Str) : List WikiLink :=
  let masked := webMaskCodeSpans content
  (scanWiki masked.length masked).filterMap fun m =>
    let t := trimStr m.title
    if t = [] then none
    else
      let lab :=
        match m.lab with
        | none => t
        | some rawLab =>
          let l := trimStr rawLab
          if l = [] then t else l
      some ⟨t, lab⟩

/-! ## Data model and reindex batch

Shallow embedding of the persisted tables touched by the reindex pass and
of the POST /notes/reindex handler body.  Note identifiers and content
hashes are abstract values that the engine only compares for equality;
they are modelled as natural numbers. -/

/-- A row of the notes table, restricted to the fields the indexing engine
reads. -/
structure Note where
  id : Nat
  title : Str
  path : Str
  content : Str
  contentHash : Nat
deriving DecidableEq, Repr

/-- An insert row for the links table. -/
structure LinkRow where
  fromNoteId : Nat
  toNoteId : Option Nat
  toTitle : Str
  toPath : Option Str
  linkText : Str
  position : Nat
deriving DecidableEq, Repr

/-- A row of the note_link_states table. -/
structure StateRow where
  noteId : Nat
  contentHash : Nat
  indexedAt : Nat
deriving DecidableEq, Repr

/-- A row of the index_runs table (the Run Ledger). -/
structure RunRow where
  startedAt : Nat
  finishedAt : Option Nat
  status : Str
deriving DecidableEq, Repr

/-- The persisted store as seen by the reindex pass. -/
structure Store where
  links : List LinkRow
  states : List StateRow
  runs : List RunRow
deriving DecidableEq, Repr

/-- Lookup in the title map built once per pass
(`new Map(notes.map(note => [note.title, note]))`): the last note with a
given title wins. -/
def titleLookup (notes : List Note) (t : Str) : Option Note :=
  notes.reverse.find? fun n => n.title = t

/-- Lookup in the state map built once per pass from the existing
note_link_states rows. -/
def stateLookup (states : List StateRow) (id : Nat) : Option Nat :=
  (states.reverse.find? fun st => st.noteId = id).map fun st => st.contentHash

/-- Builds link insert rows for a single note: extract wiki links from its
content and resolve each against the title map; an unresolved title yields
null target fields, and position is the zero-based index among the note's
extracted links. -/
def buildLinkInserts (note : Note) (notes : List Note) : List LinkRow :=
  (extractWikiLinks note.content).enum.map fun p =>
    match titleLookup notes p.2.title with
    | some target =>
      ⟨note.id, some target.id, p.2.title, some target.path, p.2.label, p.1⟩
    | none => ⟨note.id, none, p.2.title, none, p.2.label, p.1⟩

/-- Upsert of a note_link_states row keyed by noteId
(onConflictDoUpdate on the primary key). -/
def upsertState (states : List StateRow) (id hash t : Nat) : List StateRow :=
  if states.any fun st => st.noteId = id then
    states.map fun st =>
      if st.noteId = id then { st with contentHash := hash, indexedAt := t } else st
  else states ++ [⟨id, hash, t⟩]

/-- Aggregate counters of a reindex batch. -/
structure ReindexStats where
  notesIndexed : Nat
  notesSkipped : Nat
  linksInserted : Nat
  linksDeleted : Nat
deriving DecidableEq, Repr

/-- All-zero counters at batch start. -/
def zeroStats : ReindexStats := ⟨0, 0, 0, 0⟩

/-- The per-note body of the reindex loop.  The skip decision compares the
note's current hash against the state map captured before the loop
(`states0`); on change it deletes the note's outgoing edges, inserts the
freshly built rows and upserts the indexing state. -/
def reindexStep (notes : List Note) (states0 : List StateRow) (indexedAt : Nat)
    (acc : Store × ReindexStats) (note : Note) : Store × ReindexStats :=
  let s := acc.1
  let st := acc.2
  if stateLookup states0 note.id = some note.contentHash then
    (s, { st with notesSkipped := st.notesSkipped + 1 })
  else
    let deleted := (s.links.filter fun r => r.fromNoteId = note.id).length
    let kept := s.links.filter fun r => ¬ r.fromNoteId = note.id
    let inserts := buildLinkInserts note notes
    (⟨kept ++ inserts, upsertState s.states note.id note.contentHash indexedAt, s.runs⟩,
     ⟨st.notesIndexed + 1, st.notesSkipped,
      st.linksInserted + inserts.length, st.linksDeleted + deleted⟩)

/-- The reindex transaction body: fold the per-note step over all loaded
notes, with the title map and the state map both captured once at batch
start. -/
def reindex (notes : List Note) (s : Store) (indexedAt : Nat) :
    Store × ReindexStats :=
  notes.foldl (reindexStep notes s.states indexedAt) (s, zeroStats)

/-- Build backlinks for a note title from other notes: each note whose
links, as extracted by the web extractor, contain the target title
contributes exactly one entry (the source loop breaks after the first
matching link).  Note that this reads the web extractor, whose code
masking differs from the core extractor used by the reindex pass. -/
def buildBacklinks : List Note → Str → List WikiLink
  | [], _ => []
  | n :: rest, t =>
    if (webExtractWikiLinks n.content).any fun l => l.title = t then
      ⟨n.title, n.title⟩ :: buildBacklinks rest t
    else buildBacklinks rest t

/-! ## Transaction model

The store is consumed as an ACID relational store: the whole batch body
runs inside a single transaction that either commits all of its mutations
or rolls back all of them.  A body attempt either completes with the full
batch result, or raises after some prefix of the per-note steps, leaving a
partially mutated store that the transaction then discards. -/

/-- Run a body under the store's transaction: on normal completion the
mutated store is persisted together with the batch counters; if the body
raises (returns no counters), the store is rolled back to its state before
the batch. -/
def txRun (body : Store → Store × Option ReindexStats) (s : Store) :
    Store × Option ReindexStats :=
  match body s with
  | (s2, some st) => (s2, some st)
  | (_, none) => (s, none)

/-- A reindex body attempt: with `failAt = none` it completes normally;
with `failAt = some k` it raises after performing the first `k` per-note
steps, exposing the partially mutated store. -/
def reindexAttempt (notes : List Note) (indexedAt : Nat) (failAt : Option Nat)
    (s : Store) : Store × Option ReindexStats :=
  match failAt with
  | none =>
    let r := reindex notes s indexedAt
    (r.1, some r.2)
  | some k =>
    let r := (notes.take k).foldl (reindexStep notes s.states indexedAt) (s, zeroStats)
    (r.1, none)


/-! ## Code regions

The spans (start offset, length) of the input that the masking passes
replace by spaces.  These mirror the recursion of maskFenced and
maskInline and serve to state which parts of a note body lie inside a
fenced code block or an inline code span. -/

/-- Spans replaced by the fenced-code masking pass. -/
def maskFencedSpans : Nat → Str → List (Nat × Nat)
  | 0, _ => []
  | _ + 1, [] => []
  | fuel + 1, x :: xs =>
    if x = backtick ∨ x = tilde then
      let n := runLen x (x :: xs)
      if 3 ≤ n then
        match fenceLen x (x :: xs) (n - 3) with
        | some len =>
          (0, len) :: (maskFencedSpans fuel ((x :: xs).drop len)).map fun p => (p.1 + len, p.2)
        | none => (maskFencedSpans fuel xs).map fun p => (p.1 + 1, p.2)
      else (maskFencedSpans fuel xs).map fun p => (p.1 + 1, p.2)
    else (maskFencedSpans fuel xs).map fun p => (p.1 + 1, p.2)

/-- Spans replaced by the inline-code masking pass. -/
def maskInlineSpans : Nat → Str → List (Nat × Nat)
  | 0, _ => []
  | _ + 1, [] => []
  | fuel + 1, x :: xs =>
    if x = backtick then
      match inlineLen (x :: xs) (runLen x (x :: xs)) with
      | some len =>
        (0, len) :: (maskInlineSpans fuel ((x :: xs).drop len)).map fun p => (p.1 + len, p.2)
      | none => (maskInlineSpans fuel xs).map fun p => (p.1 + 1, p.2)
    else (maskInlineSpans fuel xs).map fun p => (p.1 + 1, p.2)

/-- All code regions of a note body: the fenced-code spans of the body and
the inline-code spans of the fenced-masked body (offsets agree because
masking preserves length). -/
def codeRegions (l : Str) : List (Nat × Nat) :=
  let f := maskFenced l.length l
  maskFencedSpans l.length l ++ maskInlineSpans f.length f

/-- Total number of edge rows built for the notes of `l` that the pass
treats as changed (stored hash differing from the current hash or no
state row), resolving against the full corpus `notes`. -/
def insertedTotal (notes : List Note) (states0 : List StateRow) (l : List Note) : Nat :=
  ((l.filter fun n => ¬ stateLookup states0 n.id = some n.contentHash).map
    fun n => (buildLinkInserts n notes).length).sum

theorem maskFencedSpans_space : ∀ (fuel : Nat) (l : Str) (p : Nat × Nat),
    p ∈ maskFencedSpans fuel l → ∀ j, j < p.2 → (maskFenced fuel l)[p.1 + j]? = some ' ' := by
  intro fuel
  induction fuel with
  | zero => intro l p hp; simp [maskFencedSpans] at hp
  | succ fuel ih =>
    intro l p hp j hj
    match l with
    | [] => simp [maskFencedSpans] at hp
    | x :: xs =>
      by_cases hx : x = backtick ∨ x = tilde
      · by_cases hn : 3 ≤ runLen x (x :: xs)
        · rcases hf : fenceLen x (x :: xs) (runLen x (x :: xs) - 3) with _ | len
          · simp only [maskFencedSpans, hx, if_true, hn, hf] at hp
            simp only [maskFenced, hx, if_true, hn, hf]
            rcases List.mem_map.mp hp with ⟨q, hq, rfl⟩
            rw [show q.1 + 1 + j = (q.1 + j) + 1 by omega]
            simpa using ih xs q hq j hj
          · simp only [maskFencedSpans, hx, if_true, hn, hf] at hp
            simp only [maskFenced, hx, if_true, hn, hf]
            rcases List.mem_cons.mp hp with hp0 | hp
            · subst hp0
              rw [List.getElem?_append_left (by simpa using hj)]
              simp [List.getElem?_replicate, hj]
            · rcases List.mem_map.mp hp with ⟨q, hq, rfl⟩
              rw [show q.1 + len + j = len + (q.1 + j) by omega]
              rw [List.getElem?_append_right (by simp)]
              simpa using ih _ q hq j hj
        · simp only [maskFencedSpans, hx, if_true, hn, if_false] at hp
          simp only [maskFenced, hx, if_true, hn, if_false]
          rcases List.mem_map.mp hp with ⟨q, hq, rfl⟩
          rw [show q.1 + 1 + j = (q.1 + j) + 1 by omega]
          simpa using ih xs q hq j hj
      · simp only [maskFencedSpans, hx, if_false] at hp
        simp only [maskFenced, hx, if_false]
        rcases List.mem_map.mp hp with ⟨q, hq, rfl⟩
        rw [show q.1 + 1 + j = (q.1 + j) + 1 by omega]
        simpa using ih xs q hq j hj

theorem maskInlineSpans_space : ∀ (fuel : Nat) (l : Str) (p : Nat × Nat),
    p ∈ maskInlineSpans fuel l → ∀ j, j < p.2 → (maskInline fuel l)[p.1 + j]? = some ' ' := by
  intro fuel
  induction fuel with
  | zero => intro l p hp; simp [maskInlineSpans] at hp
  | succ fuel ih =>
    intro l p hp j hj
    match l with
    | [] => simp [maskInlineSpans] at hp
    | x :: xs =>
      by_cases hx : x = backtick
      · subst hx
        rcases hf : inlineLen (backtick :: xs) (runLen backtick (backtick :: xs)) with _ | len
        · simp only [maskInlineSpans, if_true, hf] at hp
          simp only [maskInline, if_true, hf]
          rcases List.mem_map.mp hp with ⟨q, hq, rfl⟩
          rw [show q.1 + 1 + j = (q.1 + j) + 1 by omega]
          simpa using ih xs q hq j hj
        · simp only [maskInlineSpans, if_true, hf] at hp
          simp only [maskInline, if_true, hf]
          rcases List.mem_cons.mp hp with hp0 | hp
          · subst hp0
            rw [List.getElem?_append_left (by simpa using hj)]
            simp [List.getElem?_replicate, hj]
          · rcases List.mem_map.mp hp with ⟨q, hq, rfl⟩
            rw [show q.1 + len + j = len + (q.1 + j) by omega]
            rw [List.getElem?_append_right (by simp)]
            simpa using ih _ q hq j hj
      · simp only [maskInlineSpans, hx, if_false] at hp
        simp only [maskInline, hx, if_false]
        rcases List.mem_map.mp hp with ⟨q, hq, rfl⟩
        rw [show q.1 + 1 + j = (q.1 + j) + 1 by omega]
        simpa using ih xs q hq j hj

theorem maskInline_keeps_space : ∀ (fuel : Nat) (l : Str) (i : Nat),
    l[i]? = some ' ' → (maskInline fuel l)[i]? = some ' ' := by
  intro fuel
  induction fuel with
  | zero => intro l i h; simpa [maskInline] using h
  | succ fuel ih =>
    intro l i h
    match l with
    | [] => simp at h
    | x :: xs =>
      by_cases hx : x = backtick
      · subst hx
        rcases hf : inlineLen (backtick :: xs) (runLen backtick (backtick :: xs)) with _ | len
        · simp only [maskInline, if_true, hf]
          match i with
          | 0 => simpa using h
          | i + 1 => simpa using ih xs i (by simpa using h)
        · simp only [maskInline, if_true, hf]
          by_cases hi : i < len
          · rw [List.getElem?_append_left (by simpa using hi)]
            simp [List.getElem?_replicate, hi]
          · rw [List.getElem?_append_right (by simpa using Nat.le_of_not_lt hi)]
            rw [List.length_replicate]
            apply ih
            rw [List.getElem?_drop]
            rw [show len + (i - len) = i by omega]
            exact h
      · simp only [maskInline, hx, if_false]
        match i with
        | 0 => simpa using h
        | i + 1 => simpa using ih xs i (by simpa using h)

/-- Every position inside a code region of a note body is a space after
code-span masking. -/
theorem codeRegions_space (l : Str) (p : Nat × Nat) (hp : p ∈ codeRegions l)
    (j : Nat) (hj : j < p.2) : (maskCodeSpans l)[p.1 + j]? = some ' ' := by
  unfold codeRegions at hp
  unfold maskCodeSpans
  rcases List.mem_append.mp hp with hp | hp
  · exact maskInline_keeps_space _ _ _ (maskFencedSpans_space _ _ _ hp j hj)
  · exact maskInlineSpans_space _ _ _ hp j hj

theorem tryClose_some_decomp (t lab r4 t' : Str) (lab? : Option Str) (r : Str)
    (h : tryClose t lab r4 = some (t', lab?, r)) :
    t' = t ∧ lab? = some lab ∧ r4 = [']', ']'] ++ r := by
  match r4 with
  | [] => simp [tryClose] at h
  | [d1] => simp [tryClose] at h
  | d1 :: d2 :: r5 =>
    simp only [tryClose] at h
    by_cases hdd : d1 = ']' ∧ d2 = ']'
    · rw [if_pos hdd, Option.some_inj] at h
      simp only [Prod.ext_iff] at h
      obtain ⟨h1, h2, h3⟩ := h
      exact ⟨h1.symm, h2.symm, by rw [hdd.1, hdd.2, ← h3]; simp⟩
    · simp [hdd] at h

theorem tryLabel_some_decomp (t r3 t' : Str) (lab? : Option Str) (r : Str)
    (h : tryLabel t r3 = some (t', lab?, r)) : t' = t ∧ ∃ mid, r3 = mid ++ r := by
  simp only [tryLabel] at h
  by_cases hl : r3.takeWhile wikiLabelChar = []
  · simp [hl] at h
  · rw [if_neg hl] at h
    obtain ⟨h1, h2, h3⟩ := tryClose_some_decomp _ _ _ _ _ _ h
    refine ⟨h1, r3.takeWhile wikiLabelChar ++ [']', ']'], ?_⟩
    conv_lhs => rw [← List.takeWhile_append_dropWhile (p := wikiLabelChar) (l := r3)]
    rw [h3]
    simp

theorem tryWikiTail_some_decomp (t r2 t' : Str) (lab? : Option Str) (r : Str)
    (h : tryWikiTail t r2 = some (t', lab?, r)) : t' = t ∧ ∃ mid, r2 = mid ++ r := by
  match r2 with
  | [] => simp [tryWikiTail] at h
  | [d1] =>
    simp only [tryWikiTail] at h
    by_cases hd : d1 = '|'
    · simp only [hd, if_true] at h
      simp [tryLabel] at h
    · simp [hd] at h
  | d1 :: d2 :: r3 =>
    simp only [tryWikiTail] at h
    by_cases hdd : d1 = ']' ∧ d2 = ']'
    · rw [if_pos hdd, Option.some_inj] at h
      simp only [Prod.ext_iff] at h
      obtain ⟨h1, h2, h3⟩ := h
      exact ⟨h1.symm, [d1, d2], by rw [← h3]; simp⟩
    · simp only [hdd, if_false] at h
      by_cases hd : d1 = '|'
      · simp only [hd, if_true] at h
        obtain ⟨ht, mid, hmid⟩ := tryLabel_some_decomp t (d2 :: r3) t' lab? r h
        refine ⟨ht, d1 :: mid, ?_⟩
        simp only [List.cons_append]
        rw [← hmid]
      · simp [hd] at h

theorem tryWiki_some_decomp (l t : Str) (lab? : Option Str) (r : Str)
    (h : tryWiki l = some (t, lab?, r)) : ∃ mid, l = '[' :: '[' :: mid ++ r := by
  match l with
  | [] => simp [tryWiki] at h
  | [c1] => simp [tryWiki] at h
  | c1 :: c2 :: rest =>
    simp only [tryWiki] at h
    by_cases hcc : c1 = '[' ∧ c2 = '['
    · rw [if_pos hcc] at h
      by_cases ht : rest.takeWhile wikiTitleChar = []
      · simp only [ht, if_true] at h; simp at h
      · simp only [ht, if_false] at h
        obtain ⟨hteq, mid, hmid⟩ :=
          tryWikiTail_some_decomp (rest.takeWhile wikiTitleChar)
            (rest.dropWhile wikiTitleChar) t lab? r h
        refine ⟨rest.takeWhile wikiTitleChar ++ mid, ?_⟩
        rw [hcc.1, hcc.2]
        simp only [List.cons_append]
        rw [List.append_assoc, ← hmid, List.takeWhile_append_dropWhile]
    · simp [hcc] at h

theorem scanWiki_matches : ∀ (fuel : Nat) (l : Str) (m : RawMatch),
    m ∈ scanWiki fuel l → l[m.start]? = some '[' ∧ 0 < m.len := by
  intro fuel
  induction fuel with
  | zero => intro l m hm; simp [scanWiki] at hm
  | succ fuel ih =>
    intro l m hm
    match l with
    | [] => simp [scanWiki] at hm
    | x :: xs =>
      rcases htw : tryWiki (x :: xs) with _ | ⟨t, lab, r⟩
      · simp only [scanWiki, htw] at hm
        rcases List.mem_map.mp hm with ⟨q, hq, rfl⟩
        obtain ⟨h1, h2⟩ := ih xs q hq
        exact ⟨by simpa using h1, by simpa using h2⟩
      · simp only [scanWiki, htw] at hm
        obtain ⟨mid, hl⟩ := tryWiki_some_decomp (x :: xs) t lab r htw
        have hlen : (x :: xs).length = (mid.length + 2) + r.length := by
          rw [hl]; simp only [List.length_append, List.length_cons]
        have hmlen : (x :: xs).length - r.length = mid.length + 2 := by omega
        rcases List.mem_cons.mp hm with hm0 | hm
        · subst hm0
          refine ⟨?_, ?_⟩
          · have hx : x = '[' := by
              have h0 := congrArg (fun u => u[0]?) hl
              simpa using h0
            simp [hx]
          · show 0 < (x :: xs).length - r.length
            omega
        · rcases List.mem_map.mp hm with ⟨q, hq, rfl⟩
          obtain ⟨h1, h2⟩ := ih r q hq
          refine ⟨?_, by simpa using h2⟩
          show (x :: xs)[q.start + ((x :: xs).length - r.length)]? = some '['
          rw [hmlen, hl]
          rw [List.getElem?_append_right (by simp only [List.length_cons]; omega)]
          have hidx : q.start + (mid.length + 2) - ('[' :: '[' :: mid).length = q.start := by
            simp only [List.length_cons]
            omega
          rw [hidx]
          exact h1

/-- C5: extractWikiLinks extracts no link from text lying inside a fenced
code block or inline code span: no wiki-link match of the masked scan lies
within a code region of the body, and a wiki link outside such regions in
the same body is still extracted (spec test: an inline span or fenced
block containing a link yields nothing from that span, while a link
outside it survives). -/
theorem c5_code_span_masking :
    (∀ (content : Str) (m : RawMatch) (p : Nat × Nat),
      m ∈ scanWiki (maskCodeSpans content).length (maskCodeSpans content) →
      p ∈ codeRegions content →
      ¬ (p.1 ≤ m.start ∧ m.start + m.len ≤ p.1 + p.2))
    ∧ extractWikiLinks "`[[Beta]]` and [[Alpha]]".data =
        [⟨"Alpha".data, "Alpha".data⟩]
    ∧ extractWikiLinks "```\n[[Beta]]\n```\n[[Alpha]]".data =
        [⟨"Alpha".data, "Alpha".data⟩] := by
  refine ⟨?_, by decide, by decide⟩
  rintro content m p hm hp ⟨hle, hle2⟩
  obtain ⟨hbr, hpos⟩ := scanWiki_matches _ _ m hm
  have hj : m.start - p.1 < p.2 := by omega
  have hsp := codeRegions_space content p hp (m.start - p.1) hj
  rw [show p.1 + (m.start - p.1) = m.start by omega] at hsp
  rw [hsp] at hbr
  exact absurd hbr (by decide)

/-- Witness for C5 at a concrete body: the inline code span of
"`x` [[A]]" is the code region (0, 3), the only match starts at offset 4
with length 5, and it does not lie inside that region. -/
theorem c5_code_span_masking_witness :
    (⟨4, 5, "A".data, none⟩ : RawMatch) ∈
        scanWiki (maskCodeSpans "`x` [[A]]".data).length (maskCodeSpans "`x` [[A]]".data)
    ∧ ((0, 3) : Nat × Nat) ∈ codeRegions "`x` [[A]]".data
    ∧ ¬ (((0, 3) : Nat × Nat).1 ≤ (⟨4, 5, "A".data, none⟩ : RawMatch).start ∧
        (⟨4, 5, "A".data, none⟩ : RawMatch).start + (⟨4, 5, "A".data, none⟩ : RawMatch).len ≤
        ((0, 3) : Nat × Nat).1 + ((0, 3) : Nat × Nat).2) :=
  ⟨by decide, by decide,
    c5_code_span_masking.1 "`x` [[A]]".data ⟨4, 5, "A".data, none⟩ (0, 3)
      (by decide) (by decide)⟩

/-- C9: label defaulting and silent discard of blank titles: [[Alpha]]
extracts title Alpha with label Alpha, [[Alpha|A]] extracts label A, the
label defaults to the trimmed title whenever the label group is absent or
blank, a link whose trimmed title is empty is silently discarded, and no
extracted link ever has an empty title. -/
theorem c9_label_defaulting :
    extractWikiLinks "[[Alpha]]".data = [⟨"Alpha".data, "Alpha".data⟩]
    ∧ extractWikiLinks "[[Alpha|A]]".data = [⟨"Alpha".data, "A".data⟩]
    ∧ extractWikiLinks "[[ ]]".data = []
    ∧ extractWikiLinks "[[Alpha|   ]]".data = [⟨"Alpha".data, "Alpha".data⟩]
    ∧ (∀ (content : Str) (m : RawMatch),
        m ∈ scanWiki (maskCodeSpans content).length (maskCodeSpans content) →
        ¬ trimStr m.title = [] →
        (m.lab = none ∨ ∃ rawLab, m.lab = some rawLab ∧ trimStr rawLab = []) →
        WikiLink.mk (trimStr m.title) (trimStr m.title) ∈ extractWikiLinks content)
    ∧ (∀ (content : Str) (link : WikiLink),
        link ∈ extractWikiLinks content → ¬ link.title = []) := by
  refine ⟨by decide, by decide, by decide, by decide, ?_, ?_⟩
  · intro content m hm ht hlab
    simp only [extractWikiLinks]
    apply List.mem_filterMap.mpr
    refine ⟨m, hm, ?_⟩
    rw [if_neg ht]
    rcases hlab with hnone | ⟨rawLab, hsome, htrim⟩
    · rw [hnone]
    · rw [hsome]
      simp [htrim]
  · intro content link hlink
    simp only [extractWikiLinks] at hlink
    obtain ⟨m, hm, hf⟩ := List.mem_filterMap.mp hlink
    by_cases ht : trimStr m.title = []
    · rw [if_pos ht] at hf
      exact absurd hf (by simp)
    · rw [if_neg ht] at hf
      rw [Option.some_inj] at hf
      have : link.title = trimStr m.title := by rw [← hf]
      rw [this]
      exact ht

/-- Witness for C9 at concrete inputs: the defaulted link of [[Alpha]] is
extracted, and its title is nonempty. -/
theorem c9_label_defaulting_witness :
    WikiLink.mk (trimStr "Alpha".data) (trimStr "Alpha".data) ∈
        extractWikiLinks "[[Alpha]]".data
    ∧ ¬ (WikiLink.mk "Alpha".data "Alpha".data).title = [] :=
  ⟨c9_label_defaulting.2.2.2.2.1 "[[Alpha]]".data ⟨0, 9, "Alpha".data, none⟩
      (by decide) (by decide) (Or.inl rfl),
   c9_label_defaulting.2.2.2.2.2 "[[Alpha]]".data ⟨"Alpha".data, "Alpha".data⟩
      (by decide)⟩

theorem buildLinkInserts_fromNoteId (note : Note) (notes : List Note) (row : LinkRow)
    (h : row ∈ buildLinkInserts note notes) : row.fromNoteId = note.id := by
  unfold buildLinkInserts at h
  obtain ⟨p, hp, rfl⟩ := List.mem_map.mp h
  cases hl : titleLookup notes p.2.title <;> simp [hl]

/-- C6: the edge rows of a note list its extracted links in source order,
and each row's position is the zero-based ordinal of the link among the
note's extracted links. -/
theorem c6_edge_order_and_position (note : Note) (notes : List Note) :
    (buildLinkInserts note notes).map (fun row => row.position)
        = List.range (extractWikiLinks note.content).length
    ∧ (buildLinkInserts note notes).map (fun row => row.toTitle)
        = (extractWikiLinks note.content).map (fun l => l.title)
    ∧ (buildLinkInserts note notes).map (fun row => row.linkText)
        = (extractWikiLinks note.content).map (fun l => l.label) := by
  refine ⟨?_, ?_, ?_⟩ <;> unfold buildLinkInserts
  · rw [List.map_map, ← List.enum_map_fst (extractWikiLinks note.content)]
    apply List.map_congr_left
    intro p hp
    cases h : titleLookup notes p.2.title <;> simp [h]
  · conv_rhs => rw [← List.enum_map_snd (extractWikiLinks note.content)]
    rw [List.map_map, List.map_map]
    apply List.map_congr_left
    intro p hp
    cases h : titleLookup notes p.2.title <;> simp [h]
  · conv_rhs => rw [← List.enum_map_snd (extractWikiLinks note.content)]
    rw [List.map_map, List.map_map]
    apply List.map_congr_left
    intro p hp
    cases h : titleLookup notes p.2.title <;> simp [h]

/-- C7: a link whose title resolves to no note yields a normal edge with
null target note and null target path; resolution is total and never
raises. -/
theorem c7_unresolved_link_null_fields (note : Note) (notes : List Note) (row : LinkRow)
    (hrow : row ∈ buildLinkInserts note notes)
    (hnone : titleLookup notes row.toTitle = none) :
    row.toNoteId = none ∧ row.toPath = none := by
  unfold buildLinkInserts at hrow
  obtain ⟨p, hp, rfl⟩ := List.mem_map.mp hrow
  cases h : titleLookup notes p.2.title with
  | none => simp [h]
  | some target =>
    simp only [h] at hnone
    simp at hnone

/-- Witness for C7: a note linking to the absent title Missing produces
the unresolved edge with null target fields. -/
theorem c7_unresolved_link_null_fields_witness :
    (⟨1, none, "Missing".data, none, "Missing".data, 0⟩ : LinkRow) ∈
        buildLinkInserts ⟨1, "A".data, "a.md".data, "[[Missing]]".data, 7⟩
          [⟨1, "A".data, "a.md".data, "[[Missing]]".data, 7⟩]
    ∧ titleLookup [⟨1, "A".data, "a.md".data, "[[Missing]]".data, 7⟩] "Missing".data = none
    ∧ (⟨1, none, "Missing".data, none, "Missing".data, 0⟩ : LinkRow).toNoteId = none
    ∧ (⟨1, none, "Missing".data, none, "Missing".data, 0⟩ : LinkRow).toPath = none := by
  refine ⟨by decide, by decide, ?_⟩
  exact c7_unresolved_link_null_fields
    ⟨1, "A".data, "a.md".data, "[[Missing]]".data, 7⟩
    [⟨1, "A".data, "a.md".data, "[[Missing]]".data, 7⟩]
    ⟨1, none, "Missing".data, none, "Missing".data, 0⟩
    (by decide) (by decide)

theorem buildBacklinks_eq_filter (notes : List Note) (t : Str) :
    buildBacklinks notes t =
      (notes.filter fun n => (webExtractWikiLinks n.content).any fun l => l.title = t).map
        fun n => (⟨n.title, n.title⟩ : WikiLink) := by
  induction notes with
  | nil => simp [buildBacklinks]
  | cons n rest ih =>
    cases h : (webExtractWikiLinks n.content).any fun l => l.title = t <;>
      simp [buildBacklinks, List.filter_cons, h, ih]

/-- Counterexample to C8 as stated: with A's content holding the link
inside a single-backtick pair that spans two newlines, the core extractor
of the reindex pass still sees the link (its inline-code bodies cannot
cross a newline), so reindex produces the resolved edge A to Beta, while
the backlink derivation uses the web extractor (whose single-backtick
spans do cross newlines), masks the whole content, and omits A from
Beta's backlinks. -/
theorem c8_backlink_symmetry_counterexample :
    (⟨1, some 2, "Beta".data, some "b.md".data, "Beta".data, 0⟩ : LinkRow) ∈
        buildLinkInserts ⟨1, "Alpha".data, "a.md".data, "`x\n[[Beta]]\ny`".data, 11⟩
          [⟨1, "Alpha".data, "a.md".data, "`x\n[[Beta]]\ny`".data, 11⟩,
           ⟨2, "Beta".data, "b.md".data, "No links".data, 22⟩]
    ∧ titleLookup
        [⟨1, "Alpha".data, "a.md".data, "`x\n[[Beta]]\ny`".data, 11⟩,
         ⟨2, "Beta".data, "b.md".data, "No links".data, 22⟩] "Beta".data
      = some ⟨2, "Beta".data, "b.md".data, "No links".data, 22⟩
    ∧ buildBacklinks
        [⟨1, "Alpha".data, "a.md".data, "`x\n[[Beta]]\ny`".data, 11⟩,
         ⟨2, "Beta".data, "b.md".data, "No links".data, 22⟩] "Beta".data = []
    ∧ ¬ WikiLink.mk "Alpha".data "Alpha".data ∈
        buildBacklinks
          [⟨1, "Alpha".data, "a.md".data, "`x\n[[Beta]]\ny`".data, 11⟩,
           ⟨2, "Beta".data, "b.md".data, "No links".data, 22⟩] "Beta".data := by
  refine ⟨by decide, by decide, by decide, by decide⟩

/-- C8 (amended): backlink de-duplication holds unconditionally — the
backlinks of a title are exactly one entry per note whose web-extracted
links mention the title, in note order, however many times it links — and
backlink symmetry holds for every edge whose link the web extractor also
sees: if reindex produces an edge from A resolved to B and some
web-extracted link of A carries that edge's title, then the backlinks of
B's title include A.  (Unconditional symmetry fails because the reindex
pass and the backlink derivation use extractors with different code
masking; see the counterexample.) -/
theorem c8_backlink_symmetry :
    (∀ (notes : List Note) (t : Str),
      buildBacklinks notes t
        = (notes.filter fun n => (webExtractWikiLinks n.content).any fun l => l.title = t).map
            fun n => (⟨n.title, n.title⟩ : WikiLink))
    ∧ (∀ (notes : List Note) (A B : Note) (row : LinkRow),
      A ∈ notes → row ∈ buildLinkInserts A notes →
      titleLookup notes row.toTitle = some B → row.toNoteId = some B.id →
      (∃ l ∈ webExtractWikiLinks A.content, l.title = row.toTitle) →
      WikiLink.mk A.title A.title ∈ buildBacklinks notes B.title) := by
  refine ⟨buildBacklinks_eq_filter, ?_⟩
  intro notes A B row hA hrow hres hid hweb
  have hBt : B.title = row.toTitle := by
    rw [titleLookup] at hres
    have hfind := List.find?_some hres
    exact of_decide_eq_true hfind
  obtain ⟨l, hl, hlt⟩ := hweb
  rw [buildBacklinks_eq_filter]
  refine List.mem_map.mpr ⟨A, List.mem_filter.mpr ⟨hA, ?_⟩, rfl⟩
  apply List.any_eq_true.mpr
  exact ⟨l, hl, by simp [hlt, hBt]⟩

/-- Witness for the amended C8 at a concrete corpus: Alpha links to Beta
twice outside any code span, so both extractors see the link; the
resolved edge exists, Alpha appears among Beta's backlinks, and only
once. -/
theorem c8_backlink_symmetry_witness :
    (⟨1, some 2, "Beta".data, some "b.md".data, "B".data, 0⟩ : LinkRow) ∈
        buildLinkInserts ⟨1, "Alpha".data, "a.md".data, "See [[Beta|B]] and [[Beta]]".data, 11⟩
          [⟨1, "Alpha".data, "a.md".data, "See [[Beta|B]] and [[Beta]]".data, 11⟩,
           ⟨2, "Beta".data, "b.md".data, "No links".data, 22⟩]
    ∧ WikiLink.mk "Beta".data "B".data ∈
        webExtractWikiLinks "See [[Beta|B]] and [[Beta]]".data
    ∧ WikiLink.mk "Alpha".data "Alpha".data ∈
        buildBacklinks
          [⟨1, "Alpha".data, "a.md".data, "See [[Beta|B]] and [[Beta]]".data, 11⟩,
           ⟨2, "Beta".data, "b.md".data, "No links".data, 22⟩] "Beta".data
    ∧ (buildBacklinks
          [⟨1, "Alpha".data, "a.md".data, "See [[Beta|B]] and [[Beta]]".data, 11⟩,
           ⟨2, "Beta".data, "b.md".data, "No links".data, 22⟩] "Beta".data).length = 1 := by
  refine ⟨by decide, by decide, ?_, by decide⟩
  exact c8_backlink_symmetry.2
    [⟨1, "Alpha".data, "a.md".data, "See [[Beta|B]] and [[Beta]]".data, 11⟩,
     ⟨2, "Beta".data, "b.md".data, "No links".data, 22⟩]
    ⟨1, "Alpha".data, "a.md".data, "See [[Beta|B]] and [[Beta]]".data, 11⟩
    ⟨2, "Beta".data, "b.md".data, "No links".data, 22⟩
    ⟨1, some 2, "Beta".data, some "b.md".data, "B".data, 0⟩
    (by decide) (by decide) (by decide) (by decide)
    ⟨⟨"Beta".data, "B".data⟩, by decide, by decide⟩

theorem find?_update_self (r : List StateRow) (id h t : Nat)
    (hex : ∃ st ∈ r, st.noteId = id) :
    ((r.map fun st =>
        if st.noteId = id then { st with contentHash := h, indexedAt := t } else st).find?
      fun st => st.noteId = id).map (fun st => st.contentHash) = some h := by
  induction r with
  | nil => simp at hex
  | cons a r ih =>
    by_cases ha : a.noteId = id
    · simp [ha]
    · rcases hex with ⟨st, hst, hid⟩
      rcases List.mem_cons.mp hst with rfl | hst'
      · exact absurd hid ha
      · simp only [List.map_cons, if_neg ha]
        rw [List.find?_cons_of_neg _ (by simpa using ha)]
        exact ih ⟨st, hst', hid⟩

theorem find?_update_other (r : List StateRow) (id h t i : Nat) (hne : ¬ i = id) :
    ((r.map fun st =>
        if st.noteId = id then { st with contentHash := h, indexedAt := t } else st).find?
      fun st => st.noteId = i) = r.find? fun st => st.noteId = i := by
  induction r with
  | nil => simp
  | cons a r ih =>
    by_cases ha : a.noteId = id
    · have hpa : ¬ a.noteId = i := by rw [ha]; intro hc; exact hne hc.symm
      simp only [List.map_cons, if_pos ha]
      rw [List.find?_cons_of_neg _ (by simpa using ha ▸ fun hc => hne hc.symm),
        List.find?_cons_of_neg _ (by simpa using hpa)]
      exact ih
    · simp only [List.map_cons, if_neg ha]
      by_cases hpa : a.noteId = i
      · rw [List.find?_cons_of_pos _ (by simpa using hpa),
          List.find?_cons_of_pos _ (by simpa using hpa)]
      · rw [List.find?_cons_of_neg _ (by simpa using hpa),
          List.find?_cons_of_neg _ (by simpa using hpa)]
        exact ih

theorem stateLookup_upsert_self (states : List StateRow) (id h t : Nat) :
    stateLookup (upsertState states id h t) id = some h := by
  unfold upsertState
  by_cases hex : states.any fun st => st.noteId = id
  · rw [if_pos hex]
    unfold stateLookup
    rw [← List.map_reverse]
    apply find?_update_self
    rcases List.any_eq_true.mp hex with ⟨st, hst, hpe⟩
    exact ⟨st, List.mem_reverse.mpr hst, of_decide_eq_true hpe⟩
  · rw [if_neg hex]
    unfold stateLookup
    rw [List.reverse_append]
    simp

theorem stateLookup_upsert_other (states : List StateRow) (id h t i : Nat) (hne : ¬ i = id) :
    stateLookup (upsertState states id h t) i = stateLookup states i := by
  unfold upsertState
  by_cases hex : states.any fun st => st.noteId = id
  · rw [if_pos hex]
    unfold stateLookup
    rw [← List.map_reverse]
    rw [find?_update_other _ _ _ _ _ hne]
  · rw [if_neg hex]
    unfold stateLookup
    rw [List.reverse_append]
    simp only [List.reverse_cons, List.reverse_nil, List.nil_append, List.singleton_append]
    rw [List.find?_cons_of_neg _ (by simpa using fun hc => hne hc.symm)]

theorem filter_ne_then_eq_nil (l : List LinkRow) (i : Nat) :
    ((l.filter fun row => ¬ row.fromNoteId = i).filter fun row => row.fromNoteId = i) = [] := by
  apply List.filter_eq_nil_iff.mpr
  intro a ha
  have hmem := List.mem_filter.mp ha
  simpa using hmem.2

theorem filter_ne_idem (l : List LinkRow) (i : Nat) :
    ((l.filter fun row => ¬ row.fromNoteId = i).filter fun row => ¬ row.fromNoteId = i)
      = l.filter fun row => ¬ row.fromNoteId = i := by
  apply List.filter_eq_self.mpr
  intro a ha
  exact (List.mem_filter.mp ha).2

theorem inserts_filter_eq (note : Note) (notes : List Note) :
    ((buildLinkInserts note notes).filter fun row => row.fromNoteId = note.id)
      = buildLinkInserts note notes := by
  apply List.filter_eq_self.mpr
  intro a ha
  simpa using buildLinkInserts_fromNoteId note notes a ha

theorem inserts_filter_ne (note : Note) (notes : List Note) :
    ((buildLinkInserts note notes).filter fun row => ¬ row.fromNoteId = note.id) = [] := by
  apply List.filter_eq_nil_iff.mpr
  intro a ha
  simpa using buildLinkInserts_fromNoteId note notes a ha

theorem reindexStep_skip (notes : List Note) (states0 : List StateRow) (t : Nat)
    (s : Store) (stats : ReindexStats) (note : Note)
    (h : stateLookup states0 note.id = some note.contentHash) :
    reindexStep notes states0 t (s, stats) note
      = (s, { stats with notesSkipped := stats.notesSkipped + 1 }) := by
  simp [reindexStep, h]

/-- C1: the per-note reindex behavior: a note whose stored indexing-state
hash equals its current hash is skipped with no store mutation and counted
as skipped; otherwise its outgoing edges are replaced wholesale by the
rows built from its extracted links against the pass's title map, the
indexing state is upserted to the new hash, and the note is counted as
indexed with the insert/delete counters advanced accordingly. -/
theorem c1_reindex_per_note (notes : List Note) (states0 : List StateRow) (t : Nat)
    (s : Store) (stats : ReindexStats) (note : Note) :
    (stateLookup states0 note.id = some note.contentHash →
      reindexStep notes states0 t (s, stats) note
        = (s, { stats with notesSkipped := stats.notesSkipped + 1 }))
    ∧ (¬ stateLookup states0 note.id = some note.contentHash →
      ((reindexStep notes states0 t (s, stats) note).1.links.filter
          fun row => row.fromNoteId = note.id) = buildLinkInserts note notes
      ∧ ((reindexStep notes states0 t (s, stats) note).1.links.filter
          fun row => ¬ row.fromNoteId = note.id)
          = (s.links.filter fun row => ¬ row.fromNoteId = note.id)
      ∧ stateLookup (reindexStep notes states0 t (s, stats) note).1.states note.id
          = some note.contentHash
      ∧ (reindexStep notes states0 t (s, stats) note).1.runs = s.runs
      ∧ (reindexStep notes states0 t (s, stats) note).2
          = ⟨stats.notesIndexed + 1, stats.notesSkipped,
             stats.linksInserted + (buildLinkInserts note notes).length,
             stats.linksDeleted
               + (s.links.filter fun row => row.fromNoteId = note.id).length⟩) := by
  constructor
  · intro h
    exact reindexStep_skip notes states0 t s stats note h
  · intro h
    refine ⟨?_, ?_, ?_, ?_, ?_⟩
    · simp only [reindexStep, if_neg h]
      rw [List.filter_append, filter_ne_then_eq_nil, inserts_filter_eq]
      simp
    · simp only [reindexStep, if_neg h]
      rw [List.filter_append, filter_ne_idem, inserts_filter_ne]
      simp
    · simp only [reindexStep, if_neg h]
      exact stateLookup_upsert_self s.states note.id note.contentHash t
    · simp only [reindexStep, if_neg h]
    · simp only [reindexStep, if_neg h]

/-- Witness for C1: both branches at concrete inputs: a note whose state
row matches its hash is skipped untouched, and a never-indexed note gets
its state row written. -/
theorem c1_reindex_per_note_witness :
    reindexStep [] [⟨1, 5, 0⟩] 9 (⟨[], [⟨1, 5, 0⟩], []⟩, ⟨0, 0, 0, 0⟩) ⟨1, [], [], [], 5⟩
      = (⟨[], [⟨1, 5, 0⟩], []⟩, ⟨0, 1, 0, 0⟩)
    ∧ stateLookup
        (reindexStep [] [] 9 (⟨[], [], []⟩, ⟨0, 0, 0, 0⟩) ⟨1, [], [], [], 5⟩).1.states 1
      = some 5 :=
  ⟨(c1_reindex_per_note [] [⟨1, 5, 0⟩] 9 ⟨[], [⟨1, 5, 0⟩], []⟩ ⟨0, 0, 0, 0⟩
      ⟨1, [], [], [], 5⟩).1 (by decide),
   ((c1_reindex_per_note [] [] 9 ⟨[], [], []⟩ ⟨0, 0, 0, 0⟩ ⟨1, [], [], [], 5⟩).2
      (by decide)).2.2.1⟩

theorem reindexStep_runs (notes : List Note) (states0 : List StateRow) (t : Nat)
    (acc : Store × ReindexStats) (note : Note) :
    (reindexStep notes states0 t acc note).1.runs = acc.1.runs := by
  by_cases h : stateLookup states0 note.id = some note.contentHash <;> simp [reindexStep, h]

theorem foldl_reindex_runs (notes : List Note) (states0 : List StateRow) (t : Nat) :
    ∀ (l : List Note) (acc : Store × ReindexStats),
    ((l.foldl (reindexStep notes states0 t) acc).1).runs = acc.1.runs := by
  intro l
  induction l with
  | nil => intro acc; rfl
  | cons n rest ih =>
    intro acc
    rw [List.foldl_cons, ih, reindexStep_runs]

/-- C4: the reindex batch never writes the Run Ledger: the index_runs
table is left exactly as it was, for every corpus and store — no running
row is appended and no success or failed status is recorded, although the
repository's own design document specifies both. -/
theorem c4_run_ledger_never_written (notes : List Note) (s : Store) (t : Nat) :
    (reindex notes s t).1.runs = s.runs := by
  unfold reindex
  exact foldl_reindex_runs notes s.states t notes (s, zeroStats)

theorem reindexStep_lookup_other (notes : List Note) (states0 : List StateRow) (t : Nat)
    (acc : Store × ReindexStats) (note : Note) (i : Nat) (hne : ¬ i = note.id) :
    stateLookup (reindexStep notes states0 t acc note).1.states i
      = stateLookup acc.1.states i := by
  by_cases h : stateLookup states0 note.id = some note.contentHash
  · simp [reindexStep, h]
  · simp only [reindexStep, if_neg h]
    exact stateLookup_upsert_other acc.1.states note.id note.contentHash t i hne

theorem foldl_lookup_preserve (notes : List Note) (states0 : List StateRow) (t : Nat) :
    ∀ (l : List Note) (acc : Store × ReindexStats) (i : Nat),
    (∀ m ∈ l, ¬ i = m.id) →
    stateLookup ((l.foldl (reindexStep notes states0 t) acc).1).states i
      = stateLookup acc.1.states i := by
  intro l
  induction l with
  | nil => intro acc i _; rfl
  | cons n rest ih =>
    intro acc i hni
    rw [List.foldl_cons, ih _ _ fun m hm => hni m (List.mem_cons_of_mem n hm)]
    exact reindexStep_lookup_other notes states0 t acc n i (hni n (List.mem_cons_self n rest))

theorem foldl_all_indexed (notes : List Note) (states0 : List StateRow) (t : Nat) :
    ∀ (l : List Note) (acc : Store × ReindexStats),
    (l.map fun n => n.id).Nodup →
    (∀ m ∈ l, stateLookup acc.1.states m.id = stateLookup states0 m.id) →
    ∀ m ∈ l, stateLookup ((l.foldl (reindexStep notes states0 t) acc).1).states m.id
      = some m.contentHash := by
  intro l
  induction l with
  | nil => intro acc _ _ m hm; simp at hm
  | cons n rest ih =>
    intro acc hnd hagree m hm
    have hsplit : (∀ x ∈ rest, ¬ x.id = n.id) ∧ (rest.map fun n => n.id).Nodup := by
      simpa using hnd
    have hnotin : ∀ m' ∈ rest, ¬ m'.id = n.id := hsplit.1
    rw [List.foldl_cons]
    rcases List.mem_cons.mp hm with rfl | hm'
    · have hstep : stateLookup ((reindexStep notes states0 t acc m).1).states m.id
          = some m.contentHash := by
        by_cases h : stateLookup states0 m.id = some m.contentHash
        · rw [show reindexStep notes states0 t acc m
              = (acc.1, { acc.2 with notesSkipped := acc.2.notesSkipped + 1 }) from
              reindexStep_skip notes states0 t acc.1 acc.2 m h]
          rw [hagree m (List.mem_cons_self m rest)]
          exact h
        · simp only [reindexStep, if_neg h]
          exact stateLookup_upsert_self acc.1.states m.id m.contentHash t
      rw [foldl_lookup_preserve notes states0 t rest _ m.id
        fun m' hm' he => hnotin m' hm' he.symm]
      exact hstep
    · apply ih _ hsplit.2 _ m hm'
      intro m'' hm''
      rw [reindexStep_lookup_other notes states0 t acc n m''.id (hnotin m'' hm'')]
      exact hagree m'' (List.mem_cons_of_mem n hm'')

theorem reindex_all_indexed (notes : List Note) (s : Store) (t : Nat)
    (hnd : (notes.map fun n => n.id).Nodup) :
    ∀ m ∈ notes, stateLookup (reindex notes s t).1.states m.id = some m.contentHash :=
  foldl_all_indexed notes s.states t notes (s, zeroStats) hnd (fun _ _ => rfl)

theorem foldl_skip_all (notes' : List Note) (t' : Nat) :
    ∀ (l : List Note) (s : Store) (stats : ReindexStats),
    (∀ m ∈ l, stateLookup s.states m.id = some m.contentHash) →
    l.foldl (reindexStep notes' s.states t') (s, stats)
      = (s, { stats with notesSkipped := stats.notesSkipped + l.length }) := by
  intro l
  induction l with
  | nil => intro s stats _; simp
  | cons n rest ih =>
    intro s stats hall
    rw [List.foldl_cons]
    rw [reindexStep_skip notes' s.states t' s stats n
      (hall n (List.mem_cons_self n rest))]
    rw [ih s _ fun m hm => hall m (List.mem_cons_of_mem n hm)]
    refine Prod.ext rfl ?_
    simp only [ReindexStats.mk.injEq, List.length_cons, true_and, and_true]
    omega

/-- C2: reindex is idempotent: with pairwise distinct note identifiers, a
second reindex run immediately after a first one indexes zero notes,
inserts and deletes zero links, skips every note, and leaves the store
(in particular the edge set) exactly as the first run left it. -/
theorem c2_reindex_idempotent (notes : List Note) (s : Store) (t1 t2 : Nat)
    (hnd : (notes.map fun n => n.id).Nodup) :
    reindex notes (reindex notes s t1).1 t2
      = ((reindex notes s t1).1, ⟨0, notes.length, 0, 0⟩) := by
  have hall := reindex_all_indexed notes s t1 hnd
  show List.foldl (reindexStep notes (reindex notes s t1).1.states t2)
      ((reindex notes s t1).1, zeroStats) notes = _
  rw [foldl_skip_all notes t2 notes (reindex notes s t1).1 zeroStats hall]
  simp [zeroStats]

/-- Witness for C2 at the spec's scenario corpus (Alpha links to Beta):
the identifiers are distinct and the second run reports all-skipped with
an unchanged store. -/
theorem c2_reindex_idempotent_witness :
    (([⟨1, "Alpha".data, "a.md".data, "See [[Beta|B]]".data, 11⟩,
       ⟨2, "Beta".data, "b.md".data, "No links".data, 22⟩] : List Note).map
        fun n => n.id).Nodup
    ∧ reindex
        [⟨1, "Alpha".data, "a.md".data, "See [[Beta|B]]".data, 11⟩,
         ⟨2, "Beta".data, "b.md".data, "No links".data, 22⟩]
        (reindex
          [⟨1, "Alpha".data, "a.md".data, "See [[Beta|B]]".data, 11⟩,
           ⟨2, "Beta".data, "b.md".data, "No links".data, 22⟩] ⟨[], [], []⟩ 0).1 1
      = ((reindex
          [⟨1, "Alpha".data, "a.md".data, "See [[Beta|B]]".data, 11⟩,
           ⟨2, "Beta".data, "b.md".data, "No links".data, 22⟩] ⟨[], [], []⟩ 0).1,
         ⟨0, 2, 0, 0⟩) :=
  ⟨by decide,
   c2_reindex_idempotent
     [⟨1, "Alpha".data, "a.md".data, "See [[Beta|B]]".data, 11⟩,
      ⟨2, "Beta".data, "b.md".data, "No links".data, 22⟩] ⟨[], [], []⟩ 0 1 (by decide)⟩

theorem foldl_reindex_counters (notes : List Note) (states0 : List StateRow) (t : Nat) :
    ∀ (l : List Note) (acc : Store × ReindexStats),
    ((l.foldl (reindexStep notes states0 t) acc).2.notesIndexed
        + (l.foldl (reindexStep notes states0 t) acc).2.notesSkipped
      = acc.2.notesIndexed + acc.2.notesSkipped + l.length)
    ∧ (l.foldl (reindexStep notes states0 t) acc).2.linksInserted
      = acc.2.linksInserted + insertedTotal notes states0 l := by
  intro l
  induction l with
  | nil => intro acc; simp [insertedTotal]
  | cons n rest ih =>
    intro acc
    rw [List.foldl_cons]
    obtain ⟨ih1, ih2⟩ := ih (reindexStep notes states0 t acc n)
    by_cases h : stateLookup states0 n.id = some n.contentHash
    · constructor
      · rw [ih1]
        simp only [reindexStep, if_pos h, List.length_cons]
        omega
      · rw [ih2]
        simp only [reindexStep, if_pos h, insertedTotal, List.filter_cons, h]
        simp [insertedTotal]
    · constructor
      · rw [ih1]
        simp only [reindexStep, if_neg h, List.length_cons]
        omega
      · rw [ih2]
        simp only [reindexStep, if_neg h]
        have hfil : ((n :: rest).filter
            fun n => ¬ stateLookup states0 n.id = some n.contentHash)
            = n :: (rest.filter fun n => ¬ stateLookup states0 n.id = some n.contentHash) := by
          simp [List.filter_cons, h]
        simp only [insertedTotal, hfil, List.map_cons, List.sum_cons]
        simp only [insertedTotal] at *
        omega

/-- C10: counter consistency of a reindex batch: the indexed and skipped
counters sum to the number of loaded notes, and linksInserted equals the
total number of edge rows built and inserted for the changed notes of the
batch. -/
theorem c10_counter_consistency (notes : List Note) (s : Store) (t : Nat) :
    (reindex notes s t).2.notesIndexed + (reindex notes s t).2.notesSkipped = notes.length
    ∧ (reindex notes s t).2.linksInserted = insertedTotal notes s.states notes := by
  obtain ⟨h1, h2⟩ := foldl_reindex_counters notes s.states t notes (s, zeroStats)
  constructor
  · show (List.foldl (reindexStep notes s.states t) (s, zeroStats) notes).2.notesIndexed
        + (List.foldl (reindexStep notes s.states t) (s, zeroStats) notes).2.notesSkipped
      = notes.length
    rw [h1]
    simp [zeroStats]
  · show (List.foldl (reindexStep notes s.states t) (s, zeroStats) notes).2.linksInserted
      = insertedTotal notes s.states notes
    rw [h2]
    simp [zeroStats]

/-- C3: batch atomicity under the store's transaction: a body attempt that
raises after any number of per-note steps leaves the persisted store
exactly as before the batch, and a completed body persists the whole
batch's mutations together with its counters. -/
theorem c3_transaction_atomicity (notes : List Note) (s : Store) (t : Nat) :
    (∀ k, txRun (reindexAttempt notes t (some k)) s = (s, none))
    ∧ txRun (reindexAttempt notes t none) s
        = ((reindex notes s t).1, some (reindex notes s t).2) := by
  constructor
  · intro k
    simp [txRun, reindexAttempt]
  · simp [txRun, reindexAttempt]
